import Mathlib

/-!
Verification development for the Nexus package-registry gateway.

The definitions below are shallow embeddings of the TypeScript source:
pure helper functions are translated directly, storage-touching code is
modelled as explicit state passing over an association-list key/value
store, and upstream network fetches become explicit inputs.  Byte strings
are modelled as `List Nat`, version and path strings as Lean `String`
(ASCII payloads, which is what all the routes handle).
-/

namespace Nexus

/-! ## Character and string utilities -/

/-- Value of a decimal digit run, most significant first. -/
def natOfDigits (l : List Char) : Nat :=
  l.foldl (fun n c => n * 10 + (c.toNat - '0'.toNat)) 0

/-- Parse one or more leading decimal digits (JS regex `\d+`), returning the
numeric value and the remaining characters; `none` if the first character is
not a digit. -/
def parseDigits1 (l : List Char) : Option (Nat × List Char) :=
  let ds := l.takeWhile Char.isDigit
  if ds.isEmpty then none
  else some (natOfDigits ds, l.dropWhile Char.isDigit)

/-- Lower-casing as the routes use it (`String.prototype.toLowerCase` on the
ASCII identifiers handled here). -/
def strLower (s : String) : String :=
  String.mk (s.data.map Char.toLower)

/-- Boolean test that `p` is a prefix of `l`. -/
def isPre : List Char → List Char → Bool
  | [], _ => true
  | _ :: _, [] => false
  | a :: as, b :: bs => a == b && isPre as bs

/-- Boolean substring containment (JS `String.prototype.includes`). -/
def hasSub : List Char → List Char → Bool
  | t, k =>
    if isPre k t then true
    else
      match t with
      | [] => false
      | _ :: r => hasSub r k

/-! ## npm semver model

`isCompleteSemver` and `getNpmCacheControl` are translated from
`src/server/routes/cdn/npm/[...path].ts`.  The `satisfies`/`maxSatisfying`
functions model the `semver` npm package on the range grammar the claims
exercise: exact versions `x.y.z[-pre]` and the X-ranges `M` and `M.m`
(node-semver desugars `M` to `>=M.0.0 <M+1.0.0-0`).  Any other range
syntax (for example the alias `latest`) is an invalid range, for which
node-semver's `maxSatisfying` returns `null`. -/

structure SemVer where
  major : Nat
  minor : Nat
  patch : Nat
  pre : List String
deriving DecidableEq, Repr

/-- Split a character list into dot-separated identifier strings. -/
def splitIds (l : List Char) : List String :=
  ((String.mk l).splitOn ".")

/-- Parse a prerelease suffix (identifiers separated by dots, all nonempty). -/
def parsePre (l : List Char) : Option (List String) :=
  let ids := splitIds l
  if ids.all (fun i => !(i == "")) then some ids else none

/-- Parse a full semver string `major.minor.patch[-pre]` (build metadata and
leading-zero rejection are not modelled; the version strings the claims use
have neither). -/
def parseSemVer (s : String) : Option SemVer :=
  match parseDigits1 s.data with
  | some (ma, '.' :: r1) =>
    match parseDigits1 r1 with
    | some (mi, '.' :: r2) =>
      match parseDigits1 r2 with
      | some (pa, []) => some ⟨ma, mi, pa, []⟩
      | some (pa, '-' :: pr) => (parsePre pr).map (fun ids => ⟨ma, mi, pa, ids⟩)
      | _ => none
    | _ => none
  | _ => none

/-- Is a prerelease identifier purely numeric? -/
def isNumericId (s : String) : Bool :=
  !(s.data.isEmpty) && s.data.all Char.isDigit

/-- Compare two prerelease identifiers (numeric below alphanumeric,
numeric compared by value, alphanumeric by ASCII order). -/
def cmpPreId (a b : String) : Ordering :=
  if isNumericId a then
    if isNumericId b then compare (natOfDigits a.data) (natOfDigits b.data)
    else Ordering.lt
  else
    if isNumericId b then Ordering.gt
    else compare a b

/-- Compare two nonempty prerelease identifier lists positionally; the
shorter list is lower when it is a prefix of the longer one. -/
def cmpPreList : List String → List String → Ordering
  | [], [] => Ordering.eq
  | [], _ :: _ => Ordering.lt
  | _ :: _, [] => Ordering.gt
  | a :: as, b :: bs =>
    match cmpPreId a b with
    | Ordering.eq => cmpPreList as bs
    | o => o

/-- Compare prerelease components: a release (empty list) is above any
prerelease. -/
def cmpPre : List String → List String → Ordering
  | [], [] => Ordering.eq
  | [], _ :: _ => Ordering.gt
  | _ :: _, [] => Ordering.lt
  | a :: as, b :: bs => cmpPreList (a :: as) (b :: bs)

/-- Semver precedence order. -/
def cmpSemVer (a b : SemVer) : Ordering :=
  match compare a.major b.major with
  | Ordering.eq =>
    match compare a.minor b.minor with
    | Ordering.eq =>
      match compare a.patch b.patch with
      | Ordering.eq => cmpPre a.pre b.pre
      | o => o
    | o => o
  | o => o

inductive CompOp where
  | opEq
  | opGe
  | opLt
deriving DecidableEq, Repr

structure Comparator where
  op : CompOp
  ver : SemVer
deriving DecidableEq, Repr

/-- Parse a range into its comparator list (the grammar subset described
above); `none` models an invalid range. -/
def parseRange (s : String) : Option (List Comparator) :=
  match parseSemVer s with
  | some v => some [⟨CompOp.opEq, v⟩]
  | none =>
    match parseDigits1 s.data with
    | some (ma, []) =>
      some [⟨CompOp.opGe, ⟨ma, 0, 0, []⟩⟩, ⟨CompOp.opLt, ⟨ma + 1, 0, 0, ["0"]⟩⟩]
    | some (ma, '.' :: r1) =>
      match parseDigits1 r1 with
      | some (mi, []) =>
        some [⟨CompOp.opGe, ⟨ma, mi, 0, []⟩⟩, ⟨CompOp.opLt, ⟨ma, mi + 1, 0, ["0"]⟩⟩]
      | _ => none
    | _ => none

/-- Test a single comparator against a version. -/
def testComparator (v : SemVer) (c : Comparator) : Bool :=
  match c.op with
  | CompOp.opEq => cmpSemVer v c.ver == Ordering.eq
  | CompOp.opGe => !(cmpSemVer v c.ver == Ordering.lt)
  | CompOp.opLt => cmpSemVer v c.ver == Ordering.lt

/-- Do two versions share the `major.minor.patch` triple? -/
def sameTriple (a b : SemVer) : Bool :=
  a.major == b.major && a.minor == b.minor && a.patch == b.patch

/-- node-semver's comparator-set test, including the prerelease rule: a
prerelease version only satisfies a set that contains a comparator with a
prerelease on the same triple. -/
def testRange (cs : List Comparator) (v : SemVer) : Bool :=
  cs.all (testComparator v) &&
    (if v.pre.isEmpty then true
     else cs.any (fun c => !(c.ver.pre.isEmpty) && sameTriple v c.ver))

/-- `semver.satisfies`: false when the range is invalid or the version does
not parse. -/
def satisfies (version range : String) : Bool :=
  match parseRange range with
  | none => false
  | some cs =>
    match parseSemVer version with
    | none => false
    | some v => testRange cs v

/-- Compare two version strings by semver precedence (used only on strings
that parse, as in `maxSatisfying`'s candidate scan). -/
def cmpVersionStrings (a b : String) : Ordering :=
  match parseSemVer a, parseSemVer b with
  | some x, some y => cmpSemVer x y
  | _, _ => Ordering.eq

/-- `semver.maxSatisfying`: scan the versions, keeping the greatest
satisfying one (`null` for an invalid range or no candidate). -/
def maxSatisfying (versions : List String) (range : String) : Option String :=
  match parseRange range with
  | none => none
  | some _ =>
    match versions.filter (fun v => satisfies v range) with
    | [] => none
    | h :: t =>
      some (t.foldl (fun best v =>
        if cmpVersionStrings v best == Ordering.gt then v else best) h)

/-! ## npm cache policy and version resolution

Translated from the npm route handler
(`src/server/routes/cdn/npm/[...path].ts`): `isCompleteSemver`,
`getNpmCacheControl`, the version-resolution block of the default handler,
and the entry-file selection. -/

/-- `isCompleteSemver`: JS `/^\d+\.\d+\.\d+/.test(version)` — an unanchored
prefix test for `digits.digits.digits`. -/
def isCompleteSemver (s : String) : Bool :=
  match parseDigits1 s.data with
  | some (_, '.' :: r1) =>
    match parseDigits1 r1 with
    | some (_, '.' :: r2) => (parseDigits1 r2).isSome
    | _ => false
  | _ => false

/-- `getNpmCacheControl`: short cache for aliases and incomplete semvers,
immutable cache for complete semver versions. -/
def getNpmCacheControl (version : String) : String :=
  if !(isCompleteSemver version) then "public, max-age=600"
  else "public, max-age=31536000, immutable"

/-- The per-version registry metadata fields the handler reads. -/
structure VersionInfo where
  browser : Option String
  main : Option String
  module : Option String
  tarball : String
deriving DecidableEq, Repr

/-- The npm registry package document: the `versions` map (insertion-ordered
association list, as JS object keys) and the `latest` dist-tag (absent or
empty modelled as `none`). -/
structure NpmMetadata where
  versions : List (String × VersionInfo)
  distTagLatest : Option String
deriving DecidableEq, Repr

/-- Look up `metadata.versions[v]`. -/
def lookupVersion (m : NpmMetadata) (v : String) : Option VersionInfo :=
  (m.versions.find? (fun p => p.1 == v)).map Prod.snd

/-- Truthiness of `metadata.versions[v]`. -/
def hasVersion (m : NpmMetadata) (v : String) : Bool :=
  (lookupVersion m v).isSome

/-- The `latest` dist-tag fallback at the end of the resolution block. -/
def fallbackLatest (m : NpmMetadata) : Option String :=
  match m.distTagLatest with
  | some l => if hasVersion m l then some l else none
  | none => none

/-- The handler's version-resolution block: exact key lookup, then
`semver.maxSatisfying` over all version keys (reassigning `version`),
then the `latest` dist-tag; `none` models the 404 `Version not found`. -/
def resolveVersion (m : NpmMetadata) (input : String) : Option String :=
  if hasVersion m input then some input
  else
    match maxSatisfying (m.versions.map Prod.fst) input with
    | some mv => if hasVersion m mv then some mv else fallbackLatest m
    | none => fallbackLatest m

/-- The resolver output together with the immutability flag the cache policy
is derived from (the flag is computed from the resolved string). -/
def resolveWithFlag (m : NpmMetadata) (input : String) : Option (String × Bool) :=
  (resolveVersion m input).map (fun v => (v, isCompleteSemver v))

/-- Entry-file selection from the version's registry metadata:
`browser || main || module || "index.js"`. -/
def entryFileOf (vi : VersionInfo) : String :=
  match vi.browser with
  | some b => b
  | none =>
    match vi.main with
    | some mn => mn
    | none =>
      match vi.module with
      | some md => md
      | none => "index.js"

/-- The essentials of the handler's entry-file response for a package-root
request without trailing slash: which version it serves, which entry file,
and the `Cache-Control` header (computed from the resolved version). -/
structure EntryResponse where
  version : String
  entryFile : String
  cacheControl : String
deriving DecidableEq, Repr

/-- Resolve and build the entry-file response. -/
def npmEntryResponse (m : NpmMetadata) (input : String) : Option EntryResponse :=
  (resolveVersion m input).bind (fun v =>
    (lookupVersion m v).map (fun vi =>
      ⟨v, entryFileOf vi, getNpmCacheControl v⟩))

/-- The route's version-spec defaulting: `pkgVersion || "latest"`. -/
def defaultVersionSpec (v : Option String) : String :=
  match v with
  | some s => if s == "" then "latest" else s
  | none => "latest"

end Nexus

namespace Nexus

/-! ## Storage model

The `unstorage` cache back-end, modelled as association lists with
newest-first shadowing: raw items (`getItemRaw`/`setItemRaw`), meta
mappings (`getMeta`/`setMeta`, of which the routes only use the `files`
list), and `removeItem`, which deletes the single item stored at a key
(it does not touch other keys below the prefix, and not the meta). -/

/-- File bytes. -/
abbrev Bytes := List Nat

/-- A `FileEntry` of a `PackageManifest` (`CdnFile` in the source). -/
structure CdnFile where
  name : String
  size : Nat
  integrity : Option String
deriving DecidableEq, Repr

/-- The cache state: raw items and per-key meta `files` lists. -/
structure CacheState where
  items : List (String × Bytes)
  metas : List (String × List CdnFile)
deriving DecidableEq, Repr

/-- `storage.getItemRaw`. -/
def getRaw (st : CacheState) (k : String) : Option Bytes :=
  (st.items.find? (fun p => p.1 == k)).map Prod.snd

/-- `storage.setItemRaw`. -/
def setRaw (st : CacheState) (k : String) (v : Bytes) : CacheState :=
  ⟨(k, v) :: st.items, st.metas⟩

/-- The `files` field of `storage.getMeta`. -/
def getMetaFiles (st : CacheState) (k : String) : Option (List CdnFile) :=
  (st.metas.find? (fun p => p.1 == k)).map Prod.snd

/-- `storage.setMeta` with a `files` list. -/
def setMetaFiles (st : CacheState) (k : String) (fl : List CdnFile) : CacheState :=
  ⟨st.items, (k, fl) :: st.metas⟩

/-- `storage.removeItem`: deletes the item stored at exactly this key. -/
def removeItem (st : CacheState) (k : String) : CacheState :=
  ⟨st.items.filter (fun p => !(p.1 == k)), st.metas⟩

/-- Storage operations, recorded as a trace to talk about ordering. -/
inductive StorageOp where
  | opGetMeta (k : String)
  | opGetRaw (k : String)
  | opSetRaw (k : String)
  | opSetMeta (k : String)
  | opRemoveItem (k : String)
deriving DecidableEq, Repr

/-- Is a trace operation a removal? -/
def StorageOp.isRemove : StorageOp → Bool
  | StorageOp.opRemoveItem _ => true
  | _ => false

/-- Is a trace operation a raw-file write? -/
def StorageOp.isSetRaw : StorageOp → Bool
  | StorageOp.opSetRaw _ => true
  | _ => false

/-! ## npm package hydration

Translated from `cacheNpmPackageInBackground` (the background warmup with
integrity computation) and `ensurePackageCached` (the synchronous variant
with the mutable-version `removeItem`) in the npm route.  The tarball
download and `parseTarGzip` are modelled by taking the extracted entries
as input; per-file persistence is modelled sequentially in entry order.
`calculateIntegrity` (from `src/unnamed/part_002`) is parametrized by the
SHA-256/base64 primitive `hash`. -/

/-- A tar entry as produced by `parseTarGzip`. -/
structure TarFile where
  name : String
  ftype : String
  data : Option Bytes
  size : Nat
deriving DecidableEq, Repr

/-- `calculateIntegrity`: SRI formatting of the SHA-256 digest. -/
def calculateIntegrity (hash : Bytes → String) (data : Bytes) : String :=
  "sha256-" ++ hash data

/-- The tarball root path: `files[0]?.name.split("/")[0] || "package"` plus
a trailing slash (an empty first segment is falsy in JS, hence `package`). -/
def rootPathOf (files : List TarFile) : String :=
  match files with
  | [] => "package/"
  | f :: _ =>
    let seg := f.name.data.takeWhile (fun c => !(c == '/'))
    if seg.isEmpty then "package/" else String.mk seg ++ "/"

/-- `file.name.slice(rootPath.length)`. -/
def relPathOf (rootLen : Nat) (f : TarFile) : String :=
  String.mk (f.name.data.drop rootLen)

/-- The storage key base `cdn/npm/<name>/<version>`. -/
def cacheBaseOf (packageName version : String) : String :=
  "cdn/npm/" ++ packageName ++ "/" ++ version

/-- Set `integrity` on the first file-list entry with the given name
(`fileList.find((f) => f.name === relativePath)`). -/
def updateIntegrity : List CdnFile → String → String → List CdnFile
  | [], _, _ => []
  | e :: rest, n, i =>
    if e.name == n then { e with integrity := some i } :: rest
    else e :: updateIntegrity rest n i

/-- One step of the background warmup's per-file caching: skip if the raw
key already exists, otherwise write the bytes and record the integrity on
the matching file-list entry. -/
def cacheBgStep (hash : Bytes → String) (base : String) (rootLen : Nat) :
    CacheState × List CdnFile × List StorageOp → TarFile →
      CacheState × List CdnFile × List StorageOp
  | (st, fl, tr), f =>
    match getRaw st (base ++ "/" ++ relPathOf rootLen f) with
    | some _ => (st, fl, tr ++ [StorageOp.opGetRaw (base ++ "/" ++ relPathOf rootLen f)])
    | none =>
      match f.data with
      | some d =>
        (setRaw st (base ++ "/" ++ relPathOf rootLen f) d,
         updateIntegrity fl (relPathOf rootLen f) (calculateIntegrity hash d),
         tr ++ [StorageOp.opGetRaw (base ++ "/" ++ relPathOf rootLen f),
                StorageOp.opSetRaw (base ++ "/" ++ relPathOf rootLen f)])
      | none => (st, fl, tr ++ [StorageOp.opGetRaw (base ++ "/" ++ relPathOf rootLen f)])

/-- The warmup's `filesToCache` filter: regular files with data. -/
def bgKeep (f : TarFile) : Bool :=
  f.ftype == "file" && f.data.isSome

/-- The warmup's initial file-list metadata (no integrity yet). -/
def bgFileList (rootLen : Nat) (filesToCache : List TarFile) : List CdnFile :=
  filesToCache.map (fun f => ⟨relPathOf rootLen f, f.size, none⟩)

/-- The warmup's per-file caching pass over the filtered entries. -/
def cacheBgFold (hash : Bytes → String) (base : String) (rootLen : Nat)
    (fs : List TarFile) (st : CacheState) :
    CacheState × List CdnFile × List StorageOp :=
  fs.foldl (cacheBgStep hash base rootLen) (st, bgFileList rootLen fs, [])

/-- The miss branch of `cacheNpmPackageInBackground`: cache all files, then
store the file list in the meta. -/
def cacheBgRun (hash : Bytes → String) (base : String) (files : List TarFile)
    (st : CacheState) : CacheState × List StorageOp :=
  (setMetaFiles
      (cacheBgFold hash base (rootPathOf files).data.length (files.filter bgKeep) st).1
      base
      (cacheBgFold hash base (rootPathOf files).data.length (files.filter bgKeep) st).2.1,
   [StorageOp.opGetMeta base]
     ++ (cacheBgFold hash base (rootPathOf files).data.length (files.filter bgKeep) st).2.2
     ++ [StorageOp.opSetMeta base])

/-- `cacheNpmPackageInBackground`: return early if a manifest exists,
otherwise cache every regular file (computing integrity for files it
writes) and finally store the file list in the meta. -/
def cacheNpmPackageInBackground (hash : Bytes → String)
    (packageName version : String) (files : List TarFile) (st : CacheState) :
    CacheState × List StorageOp :=
  match getMetaFiles st (cacheBaseOf packageName version) with
  | some _ => (st, [StorageOp.opGetMeta (cacheBaseOf packageName version)])
  | none => cacheBgRun hash (cacheBaseOf packageName version) files st

/-- One step of `ensurePackageCached`'s hydration loop: unconditionally
write each regular file and push its entry (no integrity in this variant). -/
def ensureStep (base : String) (rootLen : Nat) :
    CacheState × List CdnFile × List StorageOp → TarFile →
      CacheState × List CdnFile × List StorageOp
  | (st, fl, tr), f =>
    if f.ftype == "file" then
      match f.data with
      | some d =>
        (setRaw st (base ++ "/" ++ relPathOf rootLen f) d,
         fl ++ [⟨relPathOf rootLen f, f.size, none⟩],
         tr ++ [StorageOp.opSetRaw (base ++ "/" ++ relPathOf rootLen f)])
      | none => (st, fl, tr)
    else (st, fl, tr)

/-- The hydration pass of `ensurePackageCached` over all tar entries. -/
def ensureFold (base : String) (rootLen : Nat) (fs : List TarFile)
    (st : CacheState) : CacheState × List CdnFile × List StorageOp :=
  fs.foldl (ensureStep base rootLen) (st, [], [])

/-- The hydrate-and-commit part of `ensurePackageCached`: write every file,
then store the file list in the meta. -/
def ensureHydrate (base : String) (rootLen : Nat) (fs : List TarFile)
    (st : CacheState) (tr0 : List StorageOp) : CacheState × List StorageOp :=
  (setMetaFiles (ensureFold base rootLen fs st).1 base (ensureFold base rootLen fs st).2.1,
   tr0 ++ (ensureFold base rootLen fs st).2.2 ++ [StorageOp.opSetMeta base])

/-- `ensurePackageCached`: for an incomplete-semver (mutable) version,
`removeItem` the base key and always rehydrate; for a complete-semver
version, skip when a manifest exists; finally store the file list. -/
def ensurePackageCached (packageName version : String)
    (files : List TarFile) (st : CacheState) : CacheState × List StorageOp :=
  if !(isCompleteSemver version) then
    ensureHydrate (cacheBaseOf packageName version) (rootPathOf files).data.length files
      (removeItem st (cacheBaseOf packageName version))
      [StorageOp.opRemoveItem (cacheBaseOf packageName version)]
  else
    match getMetaFiles st (cacheBaseOf packageName version) with
    | some _ => (st, [StorageOp.opGetMeta (cacheBaseOf packageName version)])
    | none =>
      ensureHydrate (cacheBaseOf packageName version) (rootPathOf files).data.length files
        st [StorageOp.opGetMeta (cacheBaseOf packageName version)]

end Nexus

namespace Nexus

/-! ## WinGet package index

Translated from `src/server/utils/winget.ts`.  The index is the mapping
`PackageIdentifier → set of versions`, modelled as an insertion-ordered
association list (a JS `Map` of `Set`s).  The GitHub tree fetches behind
`rebuildPackageIndex` are modelled by taking each letter directory's
fetched path list as an input (`none` models a failed fetch, which the
per-letter `try/catch` turns into `success: false`). -/

/-- The package → versions mapping. -/
abbrev WingetIndex := List (String × List String)

/-- Match a literal character sequence, returning the rest. -/
def stripLit : List Char → List Char → Option (List Char)
  | [], l => some l
  | _ :: _, [] => none
  | a :: as, b :: bs => if a == b then stripLit as bs else none

/-- Match regex `([^/]+)\/`: a nonempty run of non-slash characters followed
by a slash; returns the captured segment and the rest after the slash. -/
def takeSeg (l : List Char) : Option (List Char × List Char) :=
  let seg := l.takeWhile (fun c => !(c == '/'))
  if seg.isEmpty then none
  else
    match l.drop seg.length with
    | '/' :: rest => some (seg, rest)
    | _ => none

/-- The regex character class `[a-z0-9]`. -/
def isLetterChar (c : Char) : Bool :=
  ('a' ≤ c && c ≤ 'z') || ('0' ≤ c && c ≤ '9')

/-- Match the full-path form `^manifests\/[a-z0-9]\/` and return the rest. -/
def stripManifestsDir (l : List Char) : Option (List Char) :=
  match stripLit "manifests/".data l with
  | some (c :: '/' :: rest) => if isLetterChar c then some rest else none
  | _ => none

/-- `parsePackageIdentifier`: try the full-path regex
`^manifests\/[a-z0-9]\/([^/]+)\/([^/]+)\/` first, then the relative-path
regex `^([^/]+)\/([^/]+)\/`; joins publisher and name with a dot. -/
def parsePackageIdentifier (path : String) : Option String :=
  let fromSegs := fun (l : List Char) =>
    match takeSeg l with
    | some (pub, r1) =>
      match takeSeg r1 with
      | some (nm, _) => some (String.mk pub ++ "." ++ String.mk nm)
      | none => none
    | none => none
  match stripManifestsDir path.data with
  | some rest => fromSegs rest
  | none => fromSegs path.data

/-- `parseVersion`: third path segment, under the same two path forms. -/
def parseVersion (path : String) : Option String :=
  let fromSegs := fun (l : List Char) =>
    match takeSeg l with
    | some (_, r1) =>
      match takeSeg r1 with
      | some (_, r2) =>
        match takeSeg r2 with
        | some (ver, _) => some (String.mk ver)
        | none => none
      | none => none
    | none => none
  match stripManifestsDir path.data with
  | some rest => fromSegs rest
  | none => fromSegs path.data

/-- `path.endsWith(".yaml")`. -/
def endsWithYaml (s : String) : Bool :=
  s.data.reverse.take 5 == ".yaml".data.reverse

/-- Add a version to a package's set (`Map`/`Set` insertion order). -/
def indexInsert : WingetIndex → String → String → WingetIndex
  | [], pid, v => [(pid, [v])]
  | (p, vs) :: rest, pid, v =>
    if p == pid then (p, if vs.contains v then vs else vs ++ [v]) :: rest
    else (p, vs) :: indexInsert rest pid v

/-- Process one path of a letter's path list: only `.yaml` files whose
publisher, name and version all parse contribute to the index. -/
def addPathToIndex (idx : WingetIndex) (path : String) : WingetIndex :=
  if endsWithYaml path then
    match parsePackageIdentifier path, parseVersion path with
    | some pid, some v => indexInsert idx pid v
    | _, _ => idx
  else idx

/-- The index accumulation of `rebuildPackageIndex` over the per-letter
fetch results (failed letters contribute nothing). -/
def buildIndexFromResults (rs : List (String × Option (List String))) : WingetIndex :=
  rs.foldl (fun idx r =>
    match r.2 with
    | none => idx
    | some paths => paths.foldl addPathToIndex idx) []

/-- The storage key of the cached index. -/
def wingetIndexCacheKey : String := "registry/winget/microsoft/winget-pkgs/index"

/-- `rebuildPackageIndex`: build the index from whatever letters fetched
successfully, write it to the cache, and return it. -/
def rebuildPackageIndex (rs : List (String × Option (List String))) :
    WingetIndex × List (String × WingetIndex) :=
  let idx := buildIndexFromResults rs
  (idx, [(wingetIndexCacheKey, idx)])

/-- Which rebuild, if any, a `buildPackageIndex` call performs. -/
inductive RebuildMode where
  | noRebuild
  | backgroundRebuild
  | syncRebuild
deriving DecidableEq, Repr

/-- The cached-index state `buildPackageIndex` consults: the meta `mtime`
(milliseconds) and the stored index value. -/
structure IndexCacheState where
  mtime : Option Int
  item : Option WingetIndex
deriving DecidableEq, Repr

/-- `buildPackageIndex`: fresh cache (`(now − mtime)/1000 < 600`, i.e.
`now − mtime < 600000` ms) is returned as is; a stale cache is returned
immediately with a detached background rebuild (when the handler passed
the event, which both callers do); otherwise rebuild synchronously.
The synchronous-rebuild result is the `rebuilt` input. -/
def buildPackageIndex (cache : IndexCacheState) (now : Int)
    (eventPresent : Bool) (rebuilt : WingetIndex) : WingetIndex × RebuildMode :=
  let fresh : Option WingetIndex :=
    match cache.mtime with
    | some t => if now - t < 600000 then cache.item else none
    | none => none
  match fresh with
  | some c => (c, RebuildMode.noRebuild)
  | none =>
    let stale : Option WingetIndex :=
      match cache.mtime with
      | some _ => if eventPresent then cache.item else none
      | none => none
    match stale with
    | some c => (c, RebuildMode.backgroundRebuild)
    | none => (rebuilt, RebuildMode.syncRebuild)

/-! ## WinGet manifestSearch

Translated from `src/server/routes/registry/winget/manifestSearch.ts`:
the `matchText` match-type semantics and the handler's result loop.
`matchText`'s `Wildcard` case builds a regex from the lower-cased keyword
with `*` replaced by `.*`, anchored and case-insensitive; the model treats
the remaining characters literally (no claim exercises regex
metacharacters).  `Fuzzy` advances an index over the keyword exactly as
the source loop does. -/

inductive MatchType where
  | mtExact
  | mtCaseInsensitive
  | mtStartsWith
  | mtSubstring
  | mtWildcard
  | mtFuzzy
  | mtFuzzySubstring
deriving DecidableEq, Repr

/-- Wildcard pattern match (`*` matches any character sequence, other
characters match themselves; pattern anchored on both sides). -/
def wildMatch : List Char → List Char → Bool
  | [], t => t.isEmpty
  | '*' :: ps, [] => wildMatch ps []
  | '*' :: ps, c :: tr => wildMatch ps (c :: tr) || wildMatch ('*' :: ps) tr
  | p :: ps, [] => false && (p == p) && (ps == ps)
  | p :: ps, c :: tr => p == c && wildMatch ps tr
termination_by pat t => (pat.length, t.length)

/-- The source's `Fuzzy` loop: fold over the text advancing an index into
the keyword whenever the current character matches. -/
def fuzzyFold (kw : List Char) (t : List Char) : Nat :=
  t.foldl (fun i c => if i < kw.length && kw[i]? == some c then i + 1 else i) 0

/-- Split on runs of whitespace (JS `split(/\s+/)`, which yields an empty
piece for a leading or trailing separator). -/
def splitWsGo : List Char → List Char → List (List Char)
  | [], cur => [cur.reverse]
  | c :: r, cur =>
    if c.isWhitespace then
      cur.reverse :: splitWsGo (r.dropWhile Char.isWhitespace) []
    else splitWsGo r (c :: cur)
termination_by l _ => l.length
decreasing_by
  all_goals simp_wf
  exact Nat.lt_succ_of_le (List.dropWhile_sublist _).length_le

/-- `matchText`: an empty keyword matches everything; otherwise both sides
are lower-cased and compared per match type. -/
def matchText (text keyword : String) (mt : MatchType) : Bool :=
  if keyword == "" then true
  else
    let t := strLower text
    let k := strLower keyword
    match mt with
    | MatchType.mtExact => t == k
    | MatchType.mtCaseInsensitive => hasSub t.data k.data
    | MatchType.mtStartsWith => isPre k.data t.data
    | MatchType.mtSubstring => hasSub t.data k.data
    | MatchType.mtWildcard => wildMatch k.data t.data
    | MatchType.mtFuzzy => fuzzyFold k.data t.data == k.data.length
    | MatchType.mtFuzzySubstring =>
      (splitWsGo t.data []).any (fun w => fuzzyFold k.data w == k.data.length)

end Nexus

namespace Nexus

/-! ## manifestSearch handler loop

The response construction of the `manifestSearch` handler: iterate the
index in insertion order, stop when `MaximumResults` is reached (JS
truthiness: a `MaximumResults` of `0` imposes no limit), skip packages the
query does not match (an absent query or an empty `KeyWord` filters
nothing), and cap each package's version list at the first ten of
`Array.from(versions).sort().reverse()` — JS's default lexicographic
string sort, descending. -/

/-- JS default `Array.prototype.sort` comparison on strings (lexicographic
by code unit; the identifiers and versions here are ASCII). -/
def charListLe : List Char → List Char → Bool
  | [], _ => true
  | _ :: _, [] => false
  | a :: as, b :: bs => if a == b then charListLe as bs else decide (a < b)

/-- Lexicographic string order as a relation for sorting. -/
def strLeRel (a b : String) : Prop := charListLe a.data b.data = true

instance : DecidableRel strLeRel := fun a b =>
  inferInstanceAs (Decidable (charListLe a.data b.data = true))

/-- The `Versions` list of one search result:
`Array.from(versions).sort().reverse().slice(0, 10)`. -/
def searchVersions (vs : List String) : List String :=
  ((List.insertionSort strLeRel vs).reverse).take 10

/-- One entry of the search response `Data` array. -/
structure SearchEntry where
  pid : String
  versions : List String
deriving DecidableEq, Repr

/-- The request `Query` object. -/
structure SearchQuery where
  keyWord : String
  matchType : MatchType
deriving DecidableEq, Repr

/-- The parsed search request. -/
structure SearchRequest where
  maximumResults : Option Int
  query : Option SearchQuery
deriving DecidableEq, Repr

/-- `MaximumResults && results.length >= MaximumResults`. -/
def limitReached (mr : Option Int) (len : Nat) : Bool :=
  match mr with
  | none => false
  | some m => if m = 0 then false else decide (m ≤ (len : Int))

/-- `Query && Query.KeyWord && !matchText(...)`: is the package excluded? -/
def queryExcludes (q : Option SearchQuery) (pid : String) : Bool :=
  match q with
  | none => false
  | some qq =>
    if qq.keyWord == "" then false
    else !(matchText pid qq.keyWord qq.matchType)

/-- The handler's result loop over the index entries. -/
def searchLoop (req : SearchRequest) :
    List (String × List String) → List SearchEntry → List SearchEntry
  | [], acc => acc
  | (pid, vs) :: rest, acc =>
    if limitReached req.maximumResults acc.length then acc
    else if queryExcludes req.query pid then searchLoop req rest acc
    else searchLoop req rest (acc ++ [⟨pid, searchVersions vs⟩])

/-- The `Data` array of the search response. -/
def manifestSearchData (req : SearchRequest) (idx : List (String × List String)) :
    List SearchEntry :=
  searchLoop req idx []

/-- GET query-parameter parsing: `query.query ? {...} : undefined` (an
empty `query` parameter is falsy) with match type defaulted to
`CaseInsensitive`; `maximumResults` is taken as already `parseInt`-ed. -/
def parseGetSearchRequest (queryParam : Option String)
    (matchTypeParam : Option MatchType) (maximumResultsParam : Option Int) :
    SearchRequest :=
  { maximumResults := maximumResultsParam
  , query :=
      match queryParam with
      | some s =>
        if s == "" then none
        else some ⟨s, matchTypeParam.getD MatchType.mtCaseInsensitive⟩
      | none => none }

end Nexus

namespace Nexus

/-! ## Auxiliary definitions used by the theorems -/

/-- Greedy subsequence matcher used to reason about the `Fuzzy` loop:
walk the text, discharging keyword characters in order; returns the
unmatched remainder of the keyword. -/
def fuzzyRun : List Char → List Char → List Char
  | kw, [] => kw
  | kw, c :: t =>
    match kw with
    | [] => fuzzyRun [] t
    | k :: ks => if k == c then fuzzyRun ks t else fuzzyRun (k :: ks) t

/-- JS-truthy `MaximumResults` limiting, expressed as a take on the
remaining identifiers given the number of results already accumulated
(derived characterization of the loop's break condition). -/
def limitAux (mr : Option Int) (n : Nat) (l : List String) : List String :=
  match mr with
  | none => l
  | some m => if m = 0 then l else l.take (m.toNat - n)

/-- The identifiers a filter-free search returns: the whole index, limited
only by a nonzero `MaximumResults`. -/
def applyLimit (mr : Option Int) (l : List String) : List String :=
  limitAux mr 0 l

/-- Stated from the spec's words for comparison with the code: version `a`
is newer than version `b` in the sense of the spec's `10 newest`
(descending semantic-version order). -/
def specSemverNewer (a b : String) : Bool :=
  match parseSemVer a, parseSemVer b with
  | some x, some y => cmpSemVer x y == Ordering.gt
  | _, _ => false

/-- Twelve published versions of one package, `1.0.0` through `12.0.0`. -/
def c8Versions : List String :=
  ["1.0.0", "2.0.0", "3.0.0", "4.0.0", "5.0.0", "6.0.0",
   "7.0.0", "8.0.0", "9.0.0", "10.0.0", "11.0.0", "12.0.0"]

/-- Letter fetch results with one successful letter and one failed letter. -/
def c7Results : List (String × Option (List String)) :=
  [("m", some ["Microsoft/VisualStudioCode/1.95.0/Microsoft.VisualStudioCode.yaml"]),
   ("x", none)]

/-- A version-info record whose entry file is `index.js`. -/
def plainVI : VersionInfo := ⟨none, some "index.js", none, "tarball"⟩

/-- A react-like registry document: `18.3.1` is the latest published 18.x
version and the `latest` dist-tag points at `19.0.0`. -/
def reactMeta : NpmMetadata :=
  { versions :=
      [("16.8.0", plainVI), ("17.0.2", plainVI), ("18.0.0", plainVI),
       ("18.2.0", plainVI), ("18.3.1", plainVI), ("19.0.0", plainVI)]
  , distTagLatest := some "19.0.0" }

/-- A registry document whose `latest` dist-tag is the published complete
semver `18.3.1`. -/
def latestMeta : NpmMetadata := ⟨[("18.3.1", plainVI)], some "18.3.1"⟩

/-- Tarball contents of a fresh hydration: one file `new.js`. -/
def c3Files : List TarFile := [⟨"package/new.js", "file", some [2], 1⟩]

/-- A cache state holding a stale raw file from an earlier hydration of the
mutable key `pkg@latest` (and no manifest). -/
def c3State : CacheState := ⟨[("cdn/npm/pkg/latest/old.js", [1])], []⟩

/-! ## Fuzzy matching is exactly subsequence containment -/

lemma fuzzyRun_nil : ∀ t : List Char, fuzzyRun [] t = []
  | [] => rfl
  | _ :: t => by simpa [fuzzyRun] using fuzzyRun_nil t

lemma fuzzyRun_eq_nil_iff : ∀ (t kw : List Char), fuzzyRun kw t = [] ↔ kw.Sublist t := by
  intro t
  induction t with
  | nil =>
    intro kw
    cases kw <;> simp [fuzzyRun, List.sublist_nil]
  | cons c t ih =>
    intro kw
    cases kw with
    | nil => simp [fuzzyRun_nil, List.nil_sublist]
    | cons k ks =>
      by_cases h : k = c
      · subst h
        simp only [fuzzyRun, beq_self_eq_true, if_true]
        rw [ih ks, List.cons_sublist_cons]
      · have hbeq : (k == c) = false := by simp [h]
        simp only [fuzzyRun, hbeq, Bool.false_eq_true, if_false]
        rw [ih (k :: ks)]
        constructor
        · exact fun hs => List.sublist_cons_of_sublist c hs
        · intro hs
          cases hs with
          | cons _ hs' => exact hs'
          | cons₂ _ hs' => exact absurd rfl h

lemma fuzzyFold_go (kw : List Char) :
    ∀ (t : List Char) (i : Nat), i ≤ kw.length →
      (List.foldl (fun j c => if j < kw.length && kw[j]? == some c then j + 1 else j) i t
          = kw.length ↔ fuzzyRun (kw.drop i) t = []) := by
  intro t
  induction t with
  | nil =>
    intro i hi
    simp only [List.foldl_nil, fuzzyRun]
    rw [List.drop_eq_nil_iff]
    omega
  | cons c t ih =>
    intro i hi
    simp only [List.foldl_cons]
    by_cases hlt : i < kw.length
    · have hdrop : kw.drop i = kw[i] :: kw.drop (i + 1) := List.drop_eq_getElem_cons hlt
      by_cases hc : kw[i]? = some c
      · have hcond : (i < kw.length && kw[i]? == some c) = true := by simp [hlt, hc]
        rw [hcond]
        simp only [if_true]
        rw [ih (i + 1) (by omega)]
        have hki : kw[i] = c := by
          have := List.getElem?_eq_getElem hlt
          rw [this] at hc
          exact Option.some.inj hc
        rw [hdrop, hki]
        simp [fuzzyRun]
      · have hcq : (kw[i]? == some c) = false := by
          rw [beq_eq_false_iff_ne]
          exact hc
        have hcond : (i < kw.length && kw[i]? == some c) = false := by
          rw [hcq, Bool.and_false]
        rw [hcond]
        simp only [Bool.false_eq_true, if_false]
        rw [ih i hi]
        have hne : (kw[i] == c) = false := by
          simp only [beq_eq_false_iff_ne, ne_eq]
          intro heq
          exact hc (by rw [List.getElem?_eq_getElem hlt, heq])
        rw [hdrop]
        simp [fuzzyRun, hne]
    · have hcond : (i < kw.length && kw[i]? == some c) = false := by simp [hlt]
      rw [hcond]
      simp only [Bool.false_eq_true, if_false]
      rw [ih i hi]
      have hdrop : kw.drop i = [] := by
        rw [List.drop_eq_nil_iff]
        omega
      rw [hdrop]
      simp [fuzzyRun]

set_option maxRecDepth 8192 in
/-- C9: `Fuzzy` matching succeeds exactly when the characters of the
lower-cased keyword appear in order (not necessarily contiguously) within
the lower-cased identifier; in particular `vscode` matches
`Microsoft.VisualStudioCode`. -/
theorem winget_fuzzy_match_subsequence :
    (∀ text keyword : String,
      matchText text keyword MatchType.mtFuzzy = true ↔
        (strLower keyword).data.Sublist (strLower text).data) ∧
    matchText "Microsoft.VisualStudioCode" "vscode" MatchType.mtFuzzy = true := by
  constructor
  · intro text keyword
    by_cases hk : keyword = ""
    · subst hk
      simp [matchText, strLower, List.nil_sublist]
    · have hkb : (keyword == "") = false := by simp [hk]
      simp only [matchText, hkb, Bool.false_eq_true, if_false]
      rw [show fuzzyFold (strLower keyword).data (strLower text).data
            = List.foldl (fun j c =>
                if j < (strLower keyword).data.length
                    && (strLower keyword).data[j]? == some c
                then j + 1 else j) 0 (strLower text).data from rfl]
      rw [beq_iff_eq]
      rw [fuzzyFold_go _ _ 0 (Nat.zero_le _)]
      rw [List.drop_zero]
      exact fuzzyRun_eq_nil_iff _ _
  · decide

/-- C6: the WinGet index request path is stale-while-revalidate: a fresh
cached index is returned unchanged; a stale cached index is returned
immediately with a detached background rebuild; with no cached index the
rebuild runs synchronously before the response. -/
theorem winget_index_stale_while_revalidate (cache : IndexCacheState) (now : Int)
    (rebuilt : WingetIndex) :
    (∀ t c, cache.mtime = some t → now - t < 600000 → cache.item = some c →
      buildPackageIndex cache now true rebuilt = (c, RebuildMode.noRebuild)) ∧
    (∀ t c, cache.mtime = some t → ¬(now - t < 600000) → cache.item = some c →
      buildPackageIndex cache now true rebuilt = (c, RebuildMode.backgroundRebuild)) ∧
    (cache.item = none →
      buildPackageIndex cache now true rebuilt = (rebuilt, RebuildMode.syncRebuild)) := by
  obtain ⟨mt, it⟩ := cache
  refine ⟨?_, ?_, ?_⟩
  · rintro t c h1 h2 h3
    simp only at h1 h3
    subst h1
    subst h3
    simp [buildPackageIndex, h2]
  · rintro t c h1 h2 h3
    simp only at h1 h3
    subst h1
    subst h3
    simp [buildPackageIndex, h2]
  · rintro h
    simp only at h
    subst h
    cases mt with
    | none => simp [buildPackageIndex]
    | some t => by_cases h2 : now - t < 600000 <;> simp [buildPackageIndex, h2]

/-- Witness for C6 at concrete cache states. -/
theorem winget_index_stale_while_revalidate_witness :
    buildPackageIndex ⟨some 0, some [("A", ["1"])]⟩ 1000 true []
        = ([("A", ["1"])], RebuildMode.noRebuild) ∧
    buildPackageIndex ⟨some 0, some [("A", ["1"])]⟩ 700000 true [("B", [])]
        = ([("A", ["1"])], RebuildMode.backgroundRebuild) ∧
    buildPackageIndex ⟨some 9, none⟩ 10 true [("B", [])]
        = ([("B", [])], RebuildMode.syncRebuild) :=
  ⟨(winget_index_stale_while_revalidate ⟨some 0, some [("A", ["1"])]⟩ 1000 []).1
      0 [("A", ["1"])] rfl (by decide) rfl,
   (winget_index_stale_while_revalidate ⟨some 0, some [("A", ["1"])]⟩ 700000 [("B", [])]).2.1
      0 [("A", ["1"])] rfl (by decide) rfl,
   (winget_index_stale_while_revalidate ⟨some 9, none⟩ 10 [("B", [])]).2.2 rfl⟩

end Nexus

namespace Nexus

/-! ## The search loop without a filtering query -/

lemma limitAux_nil (mr : Option Int) (n : Nat) : limitAux mr n [] = [] := by
  cases mr with
  | none => rfl
  | some m =>
    simp only [limitAux, List.take_nil]
    split <;> rfl

lemma limitAux_of_reached (mr : Option Int) (n : Nat) (l : List String)
    (h : limitReached mr n = true) : limitAux mr n l = [] := by
  cases mr with
  | none => simp [limitReached] at h
  | some m =>
    simp only [limitReached] at h
    by_cases hm : m = 0
    · simp [hm] at h
    · rw [if_neg hm, decide_eq_true_eq] at h
      simp only [limitAux, if_neg hm]
      have : m.toNat - n = 0 := by omega
      rw [this, List.take_zero]

lemma limitAux_cons_of_not_reached (mr : Option Int) (n : Nat) (x : String)
    (l : List String) (h : limitReached mr n = false) :
    limitAux mr n (x :: l) = x :: limitAux mr (n + 1) l := by
  cases mr with
  | none => rfl
  | some m =>
    simp only [limitReached] at h
    by_cases hm : m = 0
    · simp [limitAux, hm]
    · rw [if_neg hm, decide_eq_false_iff_not, Int.not_le] at h
      simp only [limitAux, if_neg hm]
      have h1 : m.toNat - n = (m.toNat - (n + 1)) + 1 := by omega
      rw [h1, List.take_succ_cons]

lemma searchLoop_no_filter (req : SearchRequest)
    (hq : ∀ pid, queryExcludes req.query pid = false) :
    ∀ (idx : List (String × List String)) (acc : List SearchEntry),
      (searchLoop req idx acc).map SearchEntry.pid
        = acc.map SearchEntry.pid
            ++ limitAux req.maximumResults acc.length (idx.map Prod.fst) := by
  intro idx
  induction idx with
  | nil =>
    intro acc
    simp [searchLoop, limitAux_nil]
  | cons p rest ih =>
    intro acc
    obtain ⟨pid, vs⟩ := p
    by_cases hl : limitReached req.maximumResults acc.length = true
    · simp only [searchLoop, hl, if_true]
      rw [List.map_cons, limitAux_of_reached _ _ _ hl, List.append_nil]
    · rw [show searchLoop req ((pid, vs) :: rest) acc
            = searchLoop req rest (acc ++ [SearchEntry.mk pid (searchVersions vs)]) by
          simp [searchLoop, hl, hq pid]]
      rw [ih (acc ++ [SearchEntry.mk pid (searchVersions vs)])]
      rw [List.map_cons,
        limitAux_cons_of_not_reached _ _ _ _ (by simpa using hl)]
      simp only [List.map_append, List.map_cons, List.map_nil, List.length_append,
        List.length_cons, List.length_nil, Nat.zero_add]
      rw [List.append_assoc]
      rfl

/-- C10: an absent query or an empty keyword matches every indexed package:
the response `Data` lists all package identifiers from the index in order,
limited only by `MaximumResults`; and a GET request without a `query`
parameter (or with an empty one) parses to an absent query. -/
theorem winget_search_empty_keyword_matches_all
    (idx : List (String × List String)) (mr : Option Int) (q : Option SearchQuery)
    (hq : q = none ∨ ∃ mt, q = some (SearchQuery.mk "" mt)) :
    ((manifestSearchData ⟨mr, q⟩ idx).map SearchEntry.pid
        = applyLimit mr (idx.map Prod.fst)) ∧
    (∀ mtp mrp, (parseGetSearchRequest none mtp mrp).query = none ∧
      (parseGetSearchRequest (some "") mtp mrp).query = none) := by
  constructor
  · have hexc : ∀ pid, queryExcludes q pid = false := by
      rcases hq with rfl | ⟨mt, rfl⟩
      · intro pid; rfl
      · intro pid; simp [queryExcludes]
    simpa [manifestSearchData, applyLimit]
      using searchLoop_no_filter ⟨mr, q⟩ hexc idx []
  · intro mtp mrp
    exact ⟨rfl, rfl⟩

/-- Witness for C10 at a concrete two-package index with a limit of one. -/
theorem winget_search_empty_keyword_matches_all_witness :
    ((manifestSearchData ⟨some 1, none⟩ [("A", ["1.0.0"]), ("B", [])]).map SearchEntry.pid
        = applyLimit (some 1) (([("A", ["1.0.0"]), ("B", [])]).map Prod.fst)) ∧
    (∀ mtp mrp, (parseGetSearchRequest none mtp mrp).query = none ∧
      (parseGetSearchRequest (some "") mtp mrp).query = none) :=
  winget_search_empty_keyword_matches_all [("A", ["1.0.0"]), ("B", [])]
    (some 1) none (Or.inl rfl)

end Nexus

namespace Nexus

/-! ## Lexicographic order facts for the version sort -/

lemma charListLe_total : ∀ a b : List Char, charListLe a b = true ∨ charListLe b a = true := by
  intro a
  induction a with
  | nil => intro b; exact Or.inl rfl
  | cons x xs ih =>
    intro b
    cases b with
    | nil => exact Or.inr rfl
    | cons y ys =>
      by_cases hxy : x = y
      · subst hxy
        rcases ih ys with h | h
        · left
          simpa [charListLe] using h
        · right
          simpa [charListLe] using h
      · rcases lt_or_gt_of_ne hxy with h | h
        · left
          simp [charListLe, hxy, h]
        · right
          have hyx : ¬(y = x) := fun e => hxy e.symm
          simp [charListLe, hyx, h]

lemma charListLe_trans : ∀ a b c : List Char,
    charListLe a b = true → charListLe b c = true → charListLe a c = true := by
  intro a
  induction a with
  | nil => intro b c _ _; rfl
  | cons x xs ih =>
    intro b c hab hbc
    cases b with
    | nil => simp [charListLe] at hab
    | cons y ys =>
      cases c with
      | nil => simp [charListLe] at hbc
      | cons z zs =>
        by_cases hxy : x = y
        · subst hxy
          by_cases hyz : x = z
          · subst hyz
            have h1 : charListLe xs ys = true := by simpa [charListLe] using hab
            have h2 : charListLe ys zs = true := by simpa [charListLe] using hbc
            have := ih ys zs h1 h2
            simpa [charListLe] using this
          · have hlt : x < z := by
              have h2 := hbc
              simp [charListLe, hyz] at h2
              exact h2
            simp [charListLe, hyz, hlt]
        · have hxylt : x < y := by
            have h1 := hab
            simp [charListLe, hxy] at h1
            exact h1
          by_cases hyz : y = z
          · subst hyz
            simp [charListLe, hxy, hxylt]
          · have hyzlt : y < z := by
              have h2 := hbc
              simp [charListLe, hyz] at h2
              exact h2
            have hxz : x < z := lt_trans hxylt hyzlt
            have hne : ¬(x = z) := ne_of_lt hxz
            simp [charListLe, hne, hxz]

instance : IsTotal String strLeRel :=
  ⟨fun a b => charListLe_total a.data b.data⟩

instance : IsTrans String strLeRel :=
  ⟨fun a b c => charListLe_trans a.data b.data c.data⟩

/-- C8 (amended): each search result's `Versions` list has at most 10
entries; they are drawn from the package's version set and sorted in
descending lexicographic (JS default string sort) order — not descending
semantic-version order. -/
theorem winget_search_versions_lex_top10 (vs : List String) :
    (searchVersions vs).length ≤ 10 ∧
    List.Sorted (fun a b => strLeRel b a) (searchVersions vs) ∧
    (∀ v, v ∈ searchVersions vs → v ∈ vs) := by
  refine ⟨?_, ?_, ?_⟩
  · simp [searchVersions]
  · have hs : List.Sorted strLeRel (List.insertionSort strLeRel vs) :=
      List.sorted_insertionSort strLeRel vs
    have hr : List.Sorted (fun a b => strLeRel b a)
        (List.insertionSort strLeRel vs).reverse := by
      rw [List.Sorted]
      rw [List.pairwise_reverse]
      exact hs
    exact List.Pairwise.sublist (List.take_sublist _ _) hr
  · intro v hv
    have h1 : v ∈ (List.insertionSort strLeRel vs).reverse :=
      List.mem_of_mem_take hv
    rw [List.mem_reverse] at h1
    exact (List.mem_insertionSort strLeRel).mp h1

/-- Witness for C8's amended statement at the twelve-version package. -/
theorem winget_search_versions_lex_top10_witness :
    (searchVersions c8Versions).length ≤ 10 ∧
    List.Sorted (fun a b => strLeRel b a) (searchVersions c8Versions) ∧
    ("9.0.0" ∈ searchVersions c8Versions → "9.0.0" ∈ c8Versions) :=
  ⟨(winget_search_versions_lex_top10 c8Versions).1,
   (winget_search_versions_lex_top10 c8Versions).2.1,
   (winget_search_versions_lex_top10 c8Versions).2.2 "9.0.0"⟩

/-- Counterexample to C8 as stated: for a package with versions `1.0.0`
through `12.0.0`, the response's `Versions` list keeps `2.0.0` but drops
`10.0.0`, although `10.0.0` is newer — the lexicographic sort is not the
`newest` order. -/
theorem winget_search_versions_not_newest :
    "2.0.0" ∈ searchVersions c8Versions ∧
    ¬("10.0.0" ∈ searchVersions c8Versions) ∧
    "10.0.0" ∈ c8Versions ∧
    specSemverNewer "10.0.0" "2.0.0" = true := by
  refine ⟨?_, ?_, ?_, ?_⟩ <;> decide

end Nexus

namespace Nexus

/-! ## Resolver facts -/

lemma hasVersion_iff_mem (m : NpmMetadata) (v : String) :
    hasVersion m v = true ↔ v ∈ m.versions.map Prod.fst := by
  unfold hasVersion lookupVersion
  simp only [Option.isSome_map', List.find?_isSome, List.mem_map, beq_iff_eq]

lemma fallback_hasVersion (m : NpmMetadata) {v : String}
    (h : fallbackLatest m = some v) : hasVersion m v = true := by
  unfold fallbackLatest at h
  split at h
  case h_1 l hl =>
    split at h
    case isTrue hc =>
      cases h
      exact hc
    case isFalse hc => cases h
  case h_2 => cases h

lemma resolve_hasVersion (m : NpmMetadata) (x v : String)
    (h : resolveVersion m x = some v) : hasVersion m v = true := by
  unfold resolveVersion at h
  split at h
  case isTrue hcond =>
    cases h
    exact hcond
  case isFalse hcond =>
    split at h
    case h_1 mv hmv =>
      split at h
      case isTrue hc2 =>
        cases h
        exact hc2
      case isFalse hc2 => exact fallback_hasVersion m h
    case h_2 => exact fallback_hasVersion m h

lemma resolve_of_hasVersion (m : NpmMetadata) (v : String)
    (h : hasVersion m v = true) : resolveVersion m v = some v := by
  unfold resolveVersion
  rw [if_pos h]

/-- C4: the resolver is idempotent in value and immutability flag, and
every published concrete version string resolves to itself. -/
theorem npm_resolver_idempotent (m : NpmMetadata) :
    (∀ x v f, resolveWithFlag m x = some (v, f) → resolveWithFlag m v = some (v, f)) ∧
    (∀ v, hasVersion m v = true →
      resolveWithFlag m v = some (v, isCompleteSemver v)) := by
  constructor
  · intro x v f h
    unfold resolveWithFlag at h ⊢
    cases hr : resolveVersion m x with
    | none =>
      rw [hr] at h
      cases h
    | some w =>
      rw [hr] at h
      simp only [Option.map_some'] at h
      have hw : (w, isCompleteSemver w) = (v, f) := Option.some.inj h
      have hv : w = v := congrArg Prod.fst hw
      have hf : isCompleteSemver w = f := congrArg Prod.snd hw
      subst hv
      subst hf
      rw [resolve_of_hasVersion m w (resolve_hasVersion m x w hr)]
      rfl
  · intro v h
    unfold resolveWithFlag
    rw [resolve_of_hasVersion m v h]
    rfl

set_option maxRecDepth 8192 in
/-- Witness for C4 at the react-like document: `18` resolves to `18.3.1`,
which then resolves to itself with the same flag. -/
theorem npm_resolver_idempotent_witness :
    resolveWithFlag reactMeta "18.3.1" = some ("18.3.1", true) ∧
    resolveWithFlag reactMeta "18.3.1" = some ("18.3.1", isCompleteSemver "18.3.1") :=
  ⟨(npm_resolver_idempotent reactMeta).1 "18" "18.3.1" true (by decide),
   (npm_resolver_idempotent reactMeta).2 "18.3.1" (by decide)⟩

/-- C2: an input of `latest` (also the omitted-version default) whose
dist-tag points at a published complete-semver version resolves to that
version and yields the immutable cache policy, derived from the resolved
string. -/
theorem npm_latest_alias_immutable_policy (m : NpmMetadata) (l : String)
    (h0 : hasVersion m "latest" = false)
    (h1 : m.distTagLatest = some l)
    (h2 : hasVersion m l = true)
    (h3 : isCompleteSemver l = true) :
    resolveVersion m "latest" = some l ∧
    resolveVersion m (defaultVersionSpec none) = some l ∧
    (npmEntryResponse m "latest").map EntryResponse.cacheControl
        = some "public, max-age=31536000, immutable" := by
  have hres : resolveVersion m "latest" = some l := by
    unfold resolveVersion
    rw [if_neg (by simp [h0])]
    have hmax : maxSatisfying (m.versions.map Prod.fst) "latest" = none := rfl
    rw [hmax]
    change fallbackLatest m = some l
    unfold fallbackLatest
    rw [h1]
    change (if hasVersion m l = true then some l else none) = some l
    rw [if_pos h2]
  refine ⟨hres, hres, ?_⟩
  unfold npmEntryResponse
  rw [hres]
  rw [Option.some_bind]
  obtain ⟨vi, hvi⟩ := Option.isSome_iff_exists.mp h2
  rw [hvi]
  simp [getNpmCacheControl, h3]

set_option maxRecDepth 8192 in
/-- Witness for C2 at a one-version document tagged `latest = 18.3.1`. -/
theorem npm_latest_alias_immutable_policy_witness :
    resolveVersion latestMeta "latest" = some "18.3.1" ∧
    resolveVersion latestMeta (defaultVersionSpec none) = some "18.3.1" ∧
    (npmEntryResponse latestMeta "latest").map EntryResponse.cacheControl
        = some "public, max-age=31536000, immutable" :=
  npm_latest_alias_immutable_policy latestMeta "18.3.1"
    (by decide) rfl (by decide) (by decide)

end Nexus

namespace Nexus

/-! ## Characterizing maxSatisfying -/

lemma ordering_beq_gt_iff (o : Ordering) : (o == Ordering.gt) = true ↔ o = Ordering.gt := by
  cases o <;> simp <;> decide

lemma foldl_max_eq (x : String) :
    ∀ (t : List String) (best : String),
      (best = x ∨ (cmpVersionStrings best x ≠ Ordering.gt ∧
        cmpVersionStrings x best = Ordering.gt)) →
      (∀ v ∈ t, v = x ∨ (cmpVersionStrings v x ≠ Ordering.gt ∧
        cmpVersionStrings x v = Ordering.gt)) →
      (best = x ∨ x ∈ t) →
      t.foldl (fun best v =>
        if cmpVersionStrings v best == Ordering.gt then v else best) best = x := by
  intro t
  induction t with
  | nil =>
    intro best _ _ hx
    simp only [List.not_mem_nil, or_false] at hx
    simpa using hx
  | cons v t ih =>
    intro best hb hall hx
    simp only [List.foldl_cons]
    have hPv := hall v (List.mem_cons_self v t)
    apply ih
    · by_cases hc : (cmpVersionStrings v best == Ordering.gt) = true
      · rw [if_pos hc]
        exact hPv
      · rw [if_neg hc]
        exact hb
    · intro w hw
      exact hall w (List.mem_cons_of_mem v hw)
    · rcases hx with hbx | hmem
      · subst hbx
        by_cases hc : (cmpVersionStrings v best == Ordering.gt) = true
        · rw [if_pos hc]
          rcases hPv with hvx | ⟨hnotgt, _⟩
          · exact Or.inl hvx
          · exact absurd ((ordering_beq_gt_iff _).mp hc) hnotgt
        · rw [if_neg hc]
          exact Or.inl rfl
      · rcases List.mem_cons.mp hmem with hxv | hxt
        · subst hxv
          by_cases hc : (cmpVersionStrings x best == Ordering.gt) = true
          · rw [if_pos hc]
            exact Or.inl rfl
          · rcases hb with hbx | ⟨_, hgt⟩
            · rw [if_neg hc]
              exact Or.inl hbx
            · exact absurd ((ordering_beq_gt_iff _).mpr hgt) hc
        · exact Or.inr hxt

lemma maxSatisfying_eq (versions : List String) (range : String) (x : String)
    (hx : x ∈ versions) (hsat : satisfies x range = true)
    (hmax : ∀ v ∈ versions, satisfies v range = true → v ≠ x →
      cmpVersionStrings v x ≠ Ordering.gt ∧ cmpVersionStrings x v = Ordering.gt) :
    maxSatisfying versions range = some x := by
  obtain ⟨cs, hcs⟩ : ∃ cs, parseRange range = some cs := by
    unfold satisfies at hsat
    cases h : parseRange range with
    | none =>
      rw [h] at hsat
      cases hsat
    | some cs => exact ⟨cs, rfl⟩
  unfold maxSatisfying
  rw [hcs]
  have hxf : x ∈ versions.filter (fun v => satisfies v range) :=
    List.mem_filter.mpr ⟨hx, hsat⟩
  have hPall : ∀ v ∈ versions.filter (fun v => satisfies v range),
      v = x ∨ (cmpVersionStrings v x ≠ Ordering.gt ∧
        cmpVersionStrings x v = Ordering.gt) := by
    intro v hv
    obtain ⟨hvm, hvs⟩ := List.mem_filter.mp hv
    by_cases hvx : v = x
    · exact Or.inl hvx
    · exact Or.inr (hmax v hvm hvs hvx)
  cases hf : versions.filter (fun v => satisfies v range) with
  | nil =>
    rw [hf] at hxf
    cases hxf
  | cons h t =>
    rw [hf] at hxf hPall
    refine congrArg some (foldl_max_eq x t h ?_ ?_ ?_)
    · exact hPall h (List.mem_cons_self h t)
    · intro w hw
      exact hPall w (List.mem_cons_of_mem h hw)
    · rcases List.mem_cons.mp hxf with hxh | hxt
      · exact Or.inl hxh.symm
      · exact Or.inr hxt

/-- C1 (amended): when `18.3.1` is the latest published 18.x version,
`GET /cdn/npm/react@18` resolves to `18.3.1` and serves its entry file
with `Cache-Control: public, max-age=31536000, immutable` — the handler
reassigns `version` to the range-match result before computing the cache
policy, so the alias in the request path yields the immutable policy, not
the short cache. -/
theorem npm_range_request_immutable (m : NpmMetadata)
    (h18 : hasVersion m "18" = false)
    (hmem : "18.3.1" ∈ m.versions.map Prod.fst)
    (hmax : ∀ v ∈ m.versions.map Prod.fst, satisfies v "18" = true → v ≠ "18.3.1" →
      cmpVersionStrings v "18.3.1" ≠ Ordering.gt ∧
        cmpVersionStrings "18.3.1" v = Ordering.gt) :
    resolveVersion m "18" = some "18.3.1" ∧
    (npmEntryResponse m "18").map EntryResponse.version = some "18.3.1" ∧
    (npmEntryResponse m "18").map EntryResponse.cacheControl
        = some "public, max-age=31536000, immutable" := by
  have hres : resolveVersion m "18" = some "18.3.1" := by
    unfold resolveVersion
    rw [if_neg (by simp [h18])]
    rw [maxSatisfying_eq (m.versions.map Prod.fst) "18" "18.3.1" hmem (by decide) hmax]
    change (if hasVersion m "18.3.1" = true then some "18.3.1" else fallbackLatest m)
        = some "18.3.1"
    rw [if_pos ((hasVersion_iff_mem m "18.3.1").mpr hmem)]
  refine ⟨hres, ?_, ?_⟩
  · unfold npmEntryResponse
    rw [hres, Option.some_bind]
    obtain ⟨vi, hvi⟩ := Option.isSome_iff_exists.mp
      ((hasVersion_iff_mem m "18.3.1").mpr hmem)
    rw [hvi]
    simp
  · unfold npmEntryResponse
    rw [hres, Option.some_bind]
    obtain ⟨vi, hvi⟩ := Option.isSome_iff_exists.mp
      ((hasVersion_iff_mem m "18.3.1").mpr hmem)
    rw [hvi]
    have hcs : isCompleteSemver "18.3.1" = true := by decide
    simp [getNpmCacheControl, hcs]

set_option maxRecDepth 8192 in
/-- Witness for C1's amended statement at the react-like document. -/
theorem npm_range_request_immutable_witness :
    resolveVersion reactMeta "18" = some "18.3.1" ∧
    (npmEntryResponse reactMeta "18").map EntryResponse.version = some "18.3.1" ∧
    (npmEntryResponse reactMeta "18").map EntryResponse.cacheControl
        = some "public, max-age=31536000, immutable" :=
  npm_range_request_immutable reactMeta (by decide) (by decide) (by decide)

set_option maxRecDepth 8192 in
/-- Counterexample to C1 as stated: at the react-like document where
`18.3.1` is the latest 18.x version, the `react@18` entry-file response
carries the immutable cache policy, not `public, max-age=600`. -/
theorem npm_range_request_counterexample :
    (npmEntryResponse reactMeta "18").map EntryResponse.version = some "18.3.1" ∧
    (npmEntryResponse reactMeta "18").map EntryResponse.cacheControl
        = some "public, max-age=31536000, immutable" ∧
    ¬((npmEntryResponse reactMeta "18").map EntryResponse.cacheControl
        = some "public, max-age=600") := by
  refine ⟨?_, ?_, ?_⟩ <;> decide

end Nexus

namespace Nexus

/-! ## Rebuild failure isolation -/

lemma mem_indexInsert (idx : WingetIndex) (pid v : String) :
    ∀ (p : String) (vs : List String),
      (p, vs) ∈ indexInsert idx pid v → (∃ vs', (p, vs') ∈ idx) ∨ p = pid := by
  induction idx with
  | nil =>
    intro p vs h
    simp only [indexInsert, List.mem_singleton] at h
    exact Or.inr (congrArg Prod.fst h)
  | cons e rest ih =>
    obtain ⟨q, qs⟩ := e
    intro p vs h
    simp only [indexInsert] at h
    by_cases hq : (q == pid) = true
    · rw [if_pos hq] at h
      rcases List.mem_cons.mp h with he | hrest
      · have hp : p = q := congrArg Prod.fst he
        subst hp
        exact Or.inl ⟨qs, List.mem_cons_self _ _⟩
      · exact Or.inl ⟨vs, List.mem_cons_of_mem _ hrest⟩
    · rw [if_neg hq] at h
      rcases List.mem_cons.mp h with he | hrest
      · exact Or.inl ⟨vs, List.mem_cons.mpr (Or.inl he)⟩
      · rcases ih p vs hrest with ⟨vs', hv⟩ | hpid
        · exact Or.inl ⟨vs', List.mem_cons_of_mem _ hv⟩
        · exact Or.inr hpid

lemma mem_addPathToIndex (idx : WingetIndex) (path : String) (p : String)
    (vs : List String) (h : (p, vs) ∈ addPathToIndex idx path) :
    (∃ vs', (p, vs') ∈ idx) ∨
      (endsWithYaml path = true ∧ parsePackageIdentifier path = some p) := by
  unfold addPathToIndex at h
  by_cases hy : endsWithYaml path = true
  · rw [if_pos hy] at h
    cases hpi : parsePackageIdentifier path with
    | none =>
      rw [hpi] at h
      exact Or.inl ⟨vs, h⟩
    | some pid =>
      rw [hpi] at h
      cases hpv : parseVersion path with
      | none =>
        rw [hpv] at h
        exact Or.inl ⟨vs, h⟩
      | some v =>
        rw [hpv] at h
        rcases mem_indexInsert idx pid v p vs h with hin | hpid
        · exact Or.inl hin
        · subst hpid
          exact Or.inr ⟨hy, rfl⟩
  · rw [if_neg hy] at h
    exact Or.inl ⟨vs, h⟩

lemma mem_foldl_addPath (paths : List String) :
    ∀ (idx : WingetIndex) (p : String) (vs : List String),
      (p, vs) ∈ paths.foldl addPathToIndex idx →
      (∃ vs', (p, vs') ∈ idx) ∨
        (∃ path ∈ paths, endsWithYaml path = true ∧
          parsePackageIdentifier path = some p) := by
  induction paths with
  | nil =>
    intro idx p vs h
    exact Or.inl ⟨vs, h⟩
  | cons path rest ih =>
    intro idx p vs h
    simp only [List.foldl_cons] at h
    rcases ih _ p vs h with ⟨vs', hv⟩ | ⟨q, hq, hprop⟩
    · rcases mem_addPathToIndex idx path p vs' hv with hin | hyaml
      · exact Or.inl hin
      · exact Or.inr ⟨path, List.mem_cons_self _ _, hyaml⟩
    · exact Or.inr ⟨q, List.mem_cons_of_mem _ hq, hprop⟩

lemma mem_buildResults_aux (rs : List (String × Option (List String))) :
    ∀ (idx : WingetIndex) (p : String) (vs : List String),
      (p, vs) ∈ rs.foldl (fun idx r =>
        match r.2 with
        | none => idx
        | some paths => paths.foldl addPathToIndex idx) idx →
      (∃ vs', (p, vs') ∈ idx) ∨
        (∃ letter paths, (letter, some paths) ∈ rs ∧
          ∃ path ∈ paths, endsWithYaml path = true ∧
            parsePackageIdentifier path = some p) := by
  induction rs with
  | nil =>
    intro idx p vs h
    exact Or.inl ⟨vs, h⟩
  | cons r rest ih =>
    intro idx p vs h
    obtain ⟨letter, ores⟩ := r
    simp only [List.foldl_cons] at h
    cases ores with
    | none =>
      rcases ih _ p vs h with hin | ⟨l2, ps2, hmem, hrest⟩
      · exact Or.inl hin
      · exact Or.inr ⟨l2, ps2, List.mem_cons_of_mem _ hmem, hrest⟩
    | some paths =>
      rcases ih _ p vs h with ⟨vs', hv⟩ | ⟨l2, ps2, hmem, hrest⟩
      · rcases mem_foldl_addPath paths idx p vs' hv with hin | ⟨q, hq, hprop⟩
        · exact Or.inl hin
        · exact Or.inr ⟨letter, paths, List.mem_cons_self _ _, q, hq, hprop⟩
      · exact Or.inr ⟨l2, ps2, List.mem_cons_of_mem _ hmem, hrest⟩

lemma buildIndexFromResults_filter (rs : List (String × Option (List String))) :
    buildIndexFromResults rs
      = buildIndexFromResults (rs.filter (fun r => r.2.isSome)) := by
  unfold buildIndexFromResults
  generalize ([] : WingetIndex) = idx
  induction rs generalizing idx with
  | nil => rfl
  | cons r rest ih =>
    obtain ⟨letter, ores⟩ := r
    cases ores with
    | none => simpa [List.filter_cons] using ih _
    | some paths => simpa [List.filter_cons] using ih _

/-- C7: a WinGet index rebuild completes even when some letter fetches
fail: the result equals the rebuild over the successfully fetched letters
alone, the partial index is written to the cache as returned, and every
indexed package identifier comes from a successfully fetched letter's
`.yaml` path list. -/
theorem winget_rebuild_partial_on_letter_failures
    (rs : List (String × Option (List String))) :
    (rebuildPackageIndex rs).1
        = buildIndexFromResults (rs.filter (fun r => r.2.isSome)) ∧
    (rebuildPackageIndex rs).2 = [(wingetIndexCacheKey, (rebuildPackageIndex rs).1)] ∧
    (∀ p vs, (p, vs) ∈ (rebuildPackageIndex rs).1 →
      ∃ letter paths, (letter, some paths) ∈ rs ∧
        ∃ path ∈ paths, endsWithYaml path = true ∧
          parsePackageIdentifier path = some p) := by
  refine ⟨buildIndexFromResults_filter rs, rfl, ?_⟩
  intro p vs h
  rcases mem_buildResults_aux rs [] p vs h with ⟨vs', hv⟩ | hout
  · cases hv
  · exact hout

/-- Witness for C7: one successful letter and one failed letter. -/
theorem winget_rebuild_partial_on_letter_failures_witness :
    (rebuildPackageIndex c7Results).1
        = buildIndexFromResults (c7Results.filter (fun r => r.2.isSome)) ∧
    (∃ letter paths, (letter, some paths) ∈ c7Results ∧
      ∃ path ∈ paths, endsWithYaml path = true ∧
        parsePackageIdentifier path = some "Microsoft.VisualStudioCode") :=
  ⟨(winget_rebuild_partial_on_letter_failures c7Results).1,
   (winget_rebuild_partial_on_letter_failures c7Results).2.2
     "Microsoft.VisualStudioCode" ["1.95.0"] (by decide)⟩

end Nexus

namespace Nexus

/-! ## Manifest integrity invariant -/

/-- The invariant tying a file list to a cache state: every entry whose
integrity is present records the SRI SHA-256 of the bytes stored under the
corresponding raw key. -/
def IntegrityInv (hash : Bytes → String) (base : String) (st : CacheState)
    (fl : List CdnFile) : Prop :=
  ∀ e ∈ fl, ∀ i, e.integrity = some i →
    ∃ b, getRaw st (base ++ "/" ++ e.name) = some b ∧ i = calculateIntegrity hash b

lemma getRaw_setRaw (st : CacheState) (k k' : String) (v : Bytes) :
    getRaw (setRaw st k v) k' = if k' = k then some v else getRaw st k' := by
  unfold getRaw setRaw
  by_cases h : k' = k
  · subst h
    simp [List.find?_cons]
  · have hbeq : (k == k') = false := by
      rw [beq_eq_false_iff_ne]
      exact fun e => h e.symm
    simp [List.find?_cons, hbeq, h]

lemma getRaw_setMetaFiles (st : CacheState) (k k' : String) (fl : List CdnFile) :
    getRaw (setMetaFiles st k fl) k' = getRaw st k' := rfl

lemma getMetaFiles_setMetaFiles_self (st : CacheState) (k : String)
    (fl : List CdnFile) : getMetaFiles (setMetaFiles st k fl) k = some fl := by
  unfold getMetaFiles setMetaFiles
  simp [List.find?_cons]

lemma mem_updateIntegrity (n i : String) :
    ∀ (fl : List CdnFile), ∀ e ∈ updateIntegrity fl n i,
      e ∈ fl ∨ (e.name = n ∧ e.integrity = some i) := by
  intro fl
  induction fl with
  | nil =>
    intro e he
    cases he
  | cons a rest ih =>
    intro e he
    unfold updateIntegrity at he
    by_cases ha : (a.name == n) = true
    · rw [if_pos ha] at he
      rcases List.mem_cons.mp he with rfl | hrest
      · exact Or.inr ⟨beq_iff_eq.mp ha, rfl⟩
      · exact Or.inl (List.mem_cons_of_mem _ hrest)
    · rw [if_neg ha] at he
      rcases List.mem_cons.mp he with rfl | hrest
      · exact Or.inl (List.mem_cons_self _ _)
      · rcases ih e hrest with h1 | h2
        · exact Or.inl (List.mem_cons_of_mem _ h1)
        · exact Or.inr h2

lemma cacheBgStep_inv (hash : Bytes → String) (base : String) (rootLen : Nat)
    (f : TarFile) (st : CacheState) (fl : List CdnFile) (tr : List StorageOp)
    (h : IntegrityInv hash base st fl) :
    IntegrityInv hash base (cacheBgStep hash base rootLen (st, fl, tr) f).1
      (cacheBgStep hash base rootLen (st, fl, tr) f).2.1 := by
  simp only [cacheBgStep]
  cases hraw : getRaw st (base ++ "/" ++ relPathOf rootLen f) with
  | some d => exact h
  | none =>
    cases hdata : f.data with
    | none => exact h
    | some d =>
      intro e he i hi
      rcases mem_updateIntegrity (relPathOf rootLen f)
          (calculateIntegrity hash d) fl e he with hmem | ⟨hname, hint⟩
      · obtain ⟨b, hb, hib⟩ := h e hmem i hi
        rw [getRaw_setRaw]
        by_cases hk : (base ++ "/" ++ e.name) = (base ++ "/" ++ relPathOf rootLen f)
        · rw [hk] at hb
          rw [hraw] at hb
          cases hb
        · rw [if_neg hk]
          exact ⟨b, hb, hib⟩
      · rw [hint] at hi
        have hieq : i = calculateIntegrity hash d := (Option.some.inj hi).symm
        subst hieq
        rw [hname]
        rw [getRaw_setRaw, if_pos rfl]
        exact ⟨d, rfl, rfl⟩

lemma cacheBgFold_inv (hash : Bytes → String) (base : String) (rootLen : Nat) :
    ∀ (fs : List TarFile) (st : CacheState) (fl : List CdnFile) (tr : List StorageOp),
      IntegrityInv hash base st fl →
      IntegrityInv hash base
        (fs.foldl (cacheBgStep hash base rootLen) (st, fl, tr)).1
        (fs.foldl (cacheBgStep hash base rootLen) (st, fl, tr)).2.1 := by
  intro fs
  induction fs with
  | nil =>
    intro st fl tr h
    exact h
  | cons f rest ih =>
    intro st fl tr h
    simp only [List.foldl_cons]
    have hstep := cacheBgStep_inv hash base rootLen f st fl tr h
    generalize hacc : cacheBgStep hash base rootLen (st, fl, tr) f = acc at hstep ⊢
    obtain ⟨st', fl', tr'⟩ := acc
    exact ih st' fl' tr' hstep

lemma bgFileList_inv (hash : Bytes → String) (base : String) (rootLen : Nat)
    (fs : List TarFile) (st : CacheState) :
    IntegrityInv hash base st (bgFileList rootLen fs) := by
  intro e he i hi
  obtain ⟨f, hf, rfl⟩ := List.mem_map.mp he
  cases hi

/-- C5: every `FileEntry` persisted by the background warmup whose
integrity field is present records exactly the SRI `sha256-<base64>` of
the bytes stored under the corresponding raw-file key
`cdn/npm/<name>/<version>/<file-name>`. -/
theorem npm_manifest_integrity (hash : Bytes → String)
    (packageName version : String) (files : List TarFile) (st : CacheState)
    (hmeta : getMetaFiles st (cacheBaseOf packageName version) = none)
    (fl : List CdnFile)
    (hfl : getMetaFiles (cacheNpmPackageInBackground hash packageName version files st).1
        (cacheBaseOf packageName version) = some fl) :
    ∀ e ∈ fl, ∀ i, e.integrity = some i →
      ∃ b, getRaw (cacheNpmPackageInBackground hash packageName version files st).1
          (cacheBaseOf packageName version ++ "/" ++ e.name) = some b ∧
        i = calculateIntegrity hash b := by
  have hrun : cacheNpmPackageInBackground hash packageName version files st
      = cacheBgRun hash (cacheBaseOf packageName version) files st := by
    unfold cacheNpmPackageInBackground
    rw [hmeta]
  rw [hrun] at hfl ⊢
  rw [show (cacheBgRun hash (cacheBaseOf packageName version) files st).1
        = setMetaFiles
            (cacheBgFold hash (cacheBaseOf packageName version)
              (rootPathOf files).data.length (files.filter bgKeep) st).1
            (cacheBaseOf packageName version)
            (cacheBgFold hash (cacheBaseOf packageName version)
              (rootPathOf files).data.length (files.filter bgKeep) st).2.1 from rfl]
      at hfl ⊢
  rw [getMetaFiles_setMetaFiles_self] at hfl
  have hmetaeq : fl
      = (cacheBgFold hash (cacheBaseOf packageName version)
          (rootPathOf files).data.length (files.filter bgKeep) st).2.1 :=
    (Option.some.inj hfl).symm
  subst hmetaeq
  have hinv := cacheBgFold_inv hash (cacheBaseOf packageName version)
    (rootPathOf files).data.length (files.filter bgKeep) st
    (bgFileList (rootPathOf files).data.length (files.filter bgKeep)) []
    (bgFileList_inv hash (cacheBaseOf packageName version)
      (rootPathOf files).data.length (files.filter bgKeep) st)
  intro e he i hi
  obtain ⟨b, hb, hib⟩ := hinv e he i hi
  exact ⟨b, hb, hib⟩

set_option maxRecDepth 8192 in
/-- Witness for C5: a one-file hydration over an empty cache records the
hash of the written bytes. -/
theorem npm_manifest_integrity_witness :
    getMetaFiles (cacheNpmPackageInBackground (fun _ => "H") "p" "1.0.0"
        [⟨"package/a.js", "file", some [7], 1⟩] ⟨[], []⟩).1
      (cacheBaseOf "p" "1.0.0") = some [⟨"a.js", 1, some "sha256-H"⟩] ∧
    (∃ b, getRaw (cacheNpmPackageInBackground (fun _ => "H") "p" "1.0.0"
          [⟨"package/a.js", "file", some [7], 1⟩] ⟨[], []⟩).1
        (cacheBaseOf "p" "1.0.0" ++ "/" ++ "a.js") = some b ∧
      "sha256-H" = calculateIntegrity (fun _ => "H") b) := by
  constructor
  · decide
  · have h := npm_manifest_integrity (fun _ => "H") "p" "1.0.0"
      [⟨"package/a.js", "file", some [7], 1⟩] ⟨[], []⟩ (by decide)
      [⟨"a.js", 1, some "sha256-H"⟩] (by decide)
      ⟨"a.js", 1, some "sha256-H"⟩ (by decide) "sha256-H" rfl
    exact h

end Nexus

namespace Nexus

/-! ## Removal behaviour of the two hydration paths -/

lemma ensureStep_trace (base : String) (rootLen : Nat) (f : TarFile)
    (st : CacheState) (fl : List CdnFile) (tr : List StorageOp) :
    ∀ op ∈ (ensureStep base rootLen (st, fl, tr) f).2.2,
      op ∈ tr ∨ op.isRemove = false := by
  simp only [ensureStep]
  by_cases hf : (f.ftype == "file") = true
  · rw [if_pos hf]
    cases f.data with
    | some d =>
      intro op hop
      rcases List.mem_append.mp hop with hin | hnew
      · exact Or.inl hin
      · rw [List.mem_singleton] at hnew
        subst hnew
        exact Or.inr rfl
    | none =>
      intro op hop
      exact Or.inl hop
  · rw [if_neg hf]
    intro op hop
    exact Or.inl hop

lemma ensureFold_trace (base : String) (rootLen : Nat) :
    ∀ (fs : List TarFile) (st : CacheState) (fl : List CdnFile) (tr : List StorageOp),
      ∀ op ∈ (fs.foldl (ensureStep base rootLen) (st, fl, tr)).2.2,
        op ∈ tr ∨ op.isRemove = false := by
  intro fs
  induction fs with
  | nil =>
    intro st fl tr op hop
    exact Or.inl hop
  | cons f rest ih =>
    intro st fl tr op hop
    simp only [List.foldl_cons] at hop
    have hstep := ensureStep_trace base rootLen f st fl tr
    generalize hacc : ensureStep base rootLen (st, fl, tr) f = acc at hstep hop
    obtain ⟨st', fl', tr'⟩ := acc
    rcases ih st' fl' tr' op hop with hin | hnr
    · rcases hstep op hin with h1 | h2
      · exact Or.inl h1
      · exact Or.inr h2
    · exact Or.inr hnr

lemma cacheBgStep_trace (hash : Bytes → String) (base : String) (rootLen : Nat)
    (f : TarFile) (st : CacheState) (fl : List CdnFile) (tr : List StorageOp) :
    ∀ op ∈ (cacheBgStep hash base rootLen (st, fl, tr) f).2.2,
      op ∈ tr ∨ op.isRemove = false := by
  simp only [cacheBgStep]
  cases getRaw st (base ++ "/" ++ relPathOf rootLen f) with
  | some d =>
    intro op hop
    rcases List.mem_append.mp hop with hin | hnew
    · exact Or.inl hin
    · rw [List.mem_singleton] at hnew
      subst hnew
      exact Or.inr rfl
  | none =>
    cases f.data with
    | some d =>
      intro op hop
      rcases List.mem_append.mp hop with hin | hnew
      · exact Or.inl hin
      · rcases List.mem_cons.mp hnew with rfl | h2
        · exact Or.inr rfl
        · rw [List.mem_singleton] at h2
          subst h2
          exact Or.inr rfl
    | none =>
      intro op hop
      rcases List.mem_append.mp hop with hin | hnew
      · exact Or.inl hin
      · rw [List.mem_singleton] at hnew
        subst hnew
        exact Or.inr rfl

lemma cacheBgFold_trace (hash : Bytes → String) (base : String) (rootLen : Nat) :
    ∀ (fs : List TarFile) (st : CacheState) (fl : List CdnFile) (tr : List StorageOp),
      ∀ op ∈ (fs.foldl (cacheBgStep hash base rootLen) (st, fl, tr)).2.2,
        op ∈ tr ∨ op.isRemove = false := by
  intro fs
  induction fs with
  | nil =>
    intro st fl tr op hop
    exact Or.inl hop
  | cons f rest ih =>
    intro st fl tr op hop
    simp only [List.foldl_cons] at hop
    have hstep := cacheBgStep_trace hash base rootLen f st fl tr
    generalize hacc : cacheBgStep hash base rootLen (st, fl, tr) f = acc at hstep hop
    obtain ⟨st', fl', tr'⟩ := acc
    rcases ih st' fl' tr' op hop with hin | hnr
    · rcases hstep op hin with h1 | h2
      · exact Or.inl h1
      · exact Or.inr h2
    · exact Or.inr hnr

/-- C3 (amended): for every mutable version, `ensurePackageCached` starts
with a `removeItem` of the single base key — so that one single-key delete
(not a removal of the whole `cdn/npm/<name>/<version>` prefix) precedes
every raw-file write, and no other removal occurs — while
`cacheNpmPackageInBackground` performs no removal at all. -/
theorem npm_mutable_hydration_removal (hash : Bytes → String)
    (packageName version : String) (files : List TarFile) (st : CacheState)
    (hmut : isCompleteSemver version = false) :
    ((ensurePackageCached packageName version files st).2.head?
        = some (StorageOp.opRemoveItem (cacheBaseOf packageName version))) ∧
    (∀ op ∈ (ensurePackageCached packageName version files st).2.tail,
      op.isRemove = false) ∧
    (∀ op ∈ (cacheNpmPackageInBackground hash packageName version files st).2,
      op.isRemove = false) := by
  have hcond : (!(isCompleteSemver version)) = true := by
    rw [hmut]
    rfl
  have hens : ensurePackageCached packageName version files st
      = ensureHydrate (cacheBaseOf packageName version) (rootPathOf files).data.length
          files (removeItem st (cacheBaseOf packageName version))
          [StorageOp.opRemoveItem (cacheBaseOf packageName version)] := by
    unfold ensurePackageCached
    rw [if_pos hcond]
  refine ⟨?_, ?_, ?_⟩
  · rw [hens]
    rfl
  · rw [hens]
    intro op hop
    simp only [ensureHydrate, List.singleton_append, List.tail_cons] at hop
    rcases List.mem_append.mp hop with hin | hlast
    · rcases ensureFold_trace (cacheBaseOf packageName version)
          (rootPathOf files).data.length files
          (removeItem st (cacheBaseOf packageName version)) [] [] op hin with h1 | h2
      · cases h1
      · exact h2
    · rw [List.mem_singleton] at hlast
      subst hlast
      rfl
  · intro op hop
    unfold cacheNpmPackageInBackground at hop
    cases hmeta : getMetaFiles st (cacheBaseOf packageName version) with
    | some fl0 =>
      rw [hmeta] at hop
      rw [List.mem_singleton] at hop
      subst hop
      rfl
    | none =>
      rw [hmeta] at hop
      simp only [cacheBgRun, List.singleton_append] at hop
      rcases List.mem_cons.mp hop with rfl | hop2
      · rfl
      · rcases List.mem_append.mp hop2 with hin | hlast
        · have hres := cacheBgFold_trace hash (cacheBaseOf packageName version)
              (rootPathOf files).data.length (files.filter bgKeep) st
              (bgFileList (rootPathOf files).data.length (files.filter bgKeep)) []
              op hin
          rcases hres with h1 | h2
          · cases h1
          · exact h2
        · rw [List.mem_singleton] at hlast
          subst hlast
          rfl

/-- Witness for C3's amended statement: the mutable `pkg@latest` hydration
over the stale cache. -/
theorem npm_mutable_hydration_removal_witness :
    ((ensurePackageCached "pkg" "latest" c3Files c3State).2.head?
        = some (StorageOp.opRemoveItem (cacheBaseOf "pkg" "latest"))) ∧
    (∀ op ∈ (ensurePackageCached "pkg" "latest" c3Files c3State).2.tail,
      op.isRemove = false) ∧
    (∀ op ∈ (cacheNpmPackageInBackground (fun _ => "") "pkg" "latest"
        c3Files c3State).2, op.isRemove = false) :=
  npm_mutable_hydration_removal (fun _ => "") "pkg" "latest" c3Files c3State
    (by decide)

set_option maxRecDepth 8192 in
/-- Counterexample to C3 as stated: hydrating the mutable key `pkg@latest`
over a cache still holding `old.js` from a previous hydration leaves that
stale raw file in place (`removeItem` deletes only the single base key,
not the prefix), so the fresh manifest listing only `new.js` coexists with
the stale `old.js`; and the background warmup issues a raw write with no
preceding removal at all. -/
theorem npm_mutable_hydration_counterexample :
    getRaw (ensurePackageCached "pkg" "latest" c3Files c3State).1
        "cdn/npm/pkg/latest/old.js" = some [1] ∧
    getMetaFiles (ensurePackageCached "pkg" "latest" c3Files c3State).1
        "cdn/npm/pkg/latest" = some [⟨"new.js", 1, none⟩] ∧
    ((cacheNpmPackageInBackground (fun _ => "") "pkg" "latest" c3Files c3State).2.any
        StorageOp.isSetRaw = true) ∧
    ((cacheNpmPackageInBackground (fun _ => "") "pkg" "latest" c3Files c3State).2.any
        StorageOp.isRemove = false) := by
  refine ⟨?_, ?_, ?_, ?_⟩ <;> decide

end Nexus
